import Mathlib

/-!
Shallow embedding of the voice-AI conversation pipeline:
the server-side session controller and synthesis dispatcher
(`src/hono/src/durable-object/VoiceAi.ts`), the client message handler and
playback queue (`src/nextjs/features/voice-chat/hooks/useVoiceChat.ts`),
and the audio container codec (`src/nextjs/features/voice-chat/utils.ts`).
External capabilities (transcription, chat completion, speech synthesis)
are parameters: their possible results are data, and the embedding
reproduces exactly how the source reacts to each result.
-/

namespace VoiceAi

/-- One role-tagged conversation turn (`CoreMessage` with `role`/`content`
in the source; `msgHistory` is a list of these). -/
structure Turn where
  role : String
  content : String
deriving DecidableEq

/-- A message sent by the server over the websocket (`ws.send` of a JSON
object with a `type` tag). The source never calls `ws.close()` inside its
message handlers; the `close` constructor exists so "the session stays
open" is expressible as `close` never being emitted. -/
inductive ServerMsg where
  | status (text : String)
  | text (t : String)
  | audio (text : String) (audio : String)
  | error (text : String)
  | close
deriving DecidableEq

/-- Possible behaviors of the underlying transcription capability
(`this.env.AI.run(TRANSCRIBE_AUDIO_MODEL, ...)`): it raises, or returns a
result whose `text` field is a (possibly empty) string. -/
inductive TranscribeResult where
  | raises (msg : String)
  | returns (text : String)
deriving DecidableEq

/-- `transcribeAudio` (VoiceAi.ts lines 174-188): any raise is caught and
converted to `null`; a returned result yields `result.text || null`, so
the empty string (falsy in JS) also becomes `null`. `none` models `null`. -/
def transcribeAudio : TranscribeResult → Option String
  | .raises _ => none
  | .returns t => if t = "" then none else some t

/-- Possible behaviors of the underlying synthesis capability
(`this.env.AI.run(TEXT_TO_SPEECH_MODEL, ...)`): raise, return a string,
return an object with an `audio` string field, or return an ArrayBuffer
(modelled by the base64 string the source converts it to). -/
inductive TtsRaw where
  | raises (msg : String)
  | str (s : String)
  | obj (audio : String)
  | buf (base64 : String)
deriving DecidableEq

/-- `textToSpeech` (VoiceAi.ts lines 190-230): string results and object
`audio` fields are returned as-is, ArrayBuffers are base64-encoded, and
any raise is caught and converted to `null` (`none`). -/
def textToSpeech : TtsRaw → Option String
  | .raises _ => none
  | .str s => some s
  | .obj a => some a
  | .buf b => some b

/-- Outcome of iterating the completion text stream: it either ends
normally or raises mid-stream (after the listed chunks were consumed). -/
inductive StreamOutcome where
  | ok
  | raises (msg : String)
deriving DecidableEq

/-- The completion stream as observed by the `for await` loop: the text
chunks it delivered (post `smoothStream` segmentation), and how it ended. -/
structure CompletionStream where
  chunks : List String
  outcome : StreamOutcome

/-- Drops leading whitespace characters from a character list. -/
def dropWhileWs : List Char → List Char
  | [] => []
  | c :: t => if c.isWhitespace then dropWhileWs t else c :: t

/-- JS `String.prototype.trim`: remove whitespace from both ends. -/
def strTrim (s : String) : String :=
  ⟨(dropWhileWs (dropWhileWs s.data).reverse).reverse⟩

/-- The sentences actually dispatched: each chunk is trimmed and empty
results are skipped (`const sentence = String(chunk).trim(); if (!sentence)
continue;`, VoiceAi.ts lines 133-134). -/
def sentencesOf (chunks : List String) : List String :=
  (chunks.map strTrim).filter (fun s => s ≠ "")

/-- The `fullResponse` accumulator (VoiceAi.ts line 137):
`fullResponse += (fullResponse ? " " : "") + sentence`. -/
def joinSpace (sents : List String) : String :=
  sents.foldl (fun acc s => if acc = "" then s else acc ++ " " ++ s) ""

/-- The websocket sends performed by one queued synthesis task
(VoiceAi.ts lines 140-155): if the synthesis result is truthy (non-null,
non-empty — `if (audio)`) an `audio` message is sent, else nothing. -/
def ttsEmit (r : Option String) (sentence : String) : List ServerMsg :=
  match r with
  | some a => if a = "" then [] else [ServerMsg.audio sentence a]
  | none => []

/-- `generateAndSpeakResponse` (VoiceAi.ts lines 101-172), with the
synthesis capability abstracted as `tts`. The `PQueue` has concurrency 1,
so queued tasks run one at a time in insertion order; the emitted events
are therefore those of each sentence in order: a `Speaking...` status
followed by that sentence's synthesis emission. Returns the events sent,
the updated history, and the error propagated by `throw error` when the
stream raises mid-stream (in which case the assistant turn is never
pushed). -/
def generateAndSpeakResponse (history : List Turn) (stream : CompletionStream)
    (tts : String → Option String) : List ServerMsg × List Turn × Option String :=
  let sents := sentencesOf stream.chunks
  let events := sents.flatMap (fun s => ServerMsg.status "Speaking..." :: ttsEmit (tts s) s)
  match stream.outcome with
  | .ok => (events, history ++ [⟨"assistant", joinSpace sents⟩], none)
  | .raises msg => (events, history, some msg)

/-- `handleAudioInput` (VoiceAi.ts lines 76-100): send `Processing....`,
transcribe; on `null` send `Idle` and return; otherwise send the
transcript, push the user turn, run generation, and send `Idle` (the final
`Idle` is skipped if generation threw, since the throw propagates). -/
def handleAudioInput (history : List Turn) (tr : TranscribeResult)
    (stream : CompletionStream) (tts : String → Option String) :
    List ServerMsg × List Turn × Option String :=
  let ev0 := [ServerMsg.status "Processing...."]
  match transcribeAudio tr with
  | none => (ev0 ++ [ServerMsg.status "Idle"], history, none)
  | some t =>
    let h1 := history ++ [⟨"user", t⟩]
    let g := generateAndSpeakResponse h1 stream tts
    match g.2.2 with
    | some e => (ev0 ++ [ServerMsg.text t] ++ g.1, g.2.1, some e)
    | none => (ev0 ++ [ServerMsg.text t] ++ g.1 ++ [ServerMsg.status "Idle"], g.2.1, none)

/-- The `message` event listener of `handleSession` (VoiceAi.ts lines
44-65) for a binary frame: `handleAudioInput` runs inside a try/catch
whose catch sends an `error` message with the failure description and
leaves the socket open (no `close` call anywhere in the handler). -/
def handleMessage (history : List Turn) (tr : TranscribeResult)
    (stream : CompletionStream) (tts : String → Option String) :
    List ServerMsg × List Turn :=
  let r := handleAudioInput history tr stream tts
  match r.2.2 with
  | some e => (r.1 ++ [ServerMsg.error e], r.2.1)
  | none => (r.1, r.2.1)

/-- Extracts the `audio` events of an event list in order. -/
def audioEvents : List ServerMsg → List (String × String)
  | [] => []
  | ServerMsg.audio t a :: rest => (t, a) :: audioEvents rest
  | _ :: rest => audioEvents rest

/-- The audio event one sentence contributes, if any: its synthesis result
when that result is truthy. -/
def emitOf (r : Option String) (sentence : String) : Option (String × String) :=
  match r with
  | some a => if a = "" then none else some (sentence, a)
  | none => none

/-- How one synthesis call behaves for one unit: how many scheduler ticks
it takes, and the (possibly null) audio it produces. The latency is
arbitrary — the ordering theorems quantify over it. -/
structure SynthSpec where
  latency : Nat
  result : Option String
deriving DecidableEq

/-- A sentence unit queued on the dispatcher, tagged with its monotonic
sequence number (the position at which `ttsQueue.add` was called), its
text, and its synthesis behavior. -/
structure DispatchTask where
  sequence : Nat
  text : String
  synth : SynthSpec
deriving DecidableEq

/-- The `PQueue({ concurrency: 1 })` dispatcher state: tasks not yet
started, the at-most-one task whose synthesis call is running (with its
remaining ticks), and the speech chunks already sent to the websocket,
in send order. -/
structure DispatcherState where
  pending : List DispatchTask
  inflight : Option (DispatchTask × Nat)
  emitted : List (Nat × String × String)
deriving DecidableEq

/-- The chunk (if any) a completed task sends: `if (audio) ws.send(...)`
(VoiceAi.ts lines 148-154) — a null or empty result sends nothing. -/
def emitChunk (t : DispatchTask) : List (Nat × String × String) :=
  match t.synth.result with
  | some a => if a = "" then [] else [(t.sequence, t.text, a)]
  | none => []

/-- One scheduler step of the concurrency-1 queue: if nothing is in
flight, start the next pending task; if the in-flight synthesis still has
ticks left, it advances; when it reaches zero ticks its task completes —
its chunk (if any) is sent — and the slot frees. -/
def dispatchStep (s : DispatcherState) : DispatcherState :=
  match s.inflight with
  | some (t, Nat.succ k) => ⟨s.pending, some (t, k), s.emitted⟩
  | some (t, 0) => ⟨s.pending, none, s.emitted ++ emitChunk t⟩
  | none =>
    match s.pending with
    | [] => s
    | t :: rest => ⟨rest, some (t, t.synth.latency), s.emitted⟩

/-- `n` scheduler steps. -/
def dispatchRun (n : Nat) (s : DispatcherState) : DispatcherState :=
  match n with
  | 0 => s
  | Nat.succ m => dispatchRun m (dispatchStep s)

/-- The initial dispatcher state for one turn: the sentence units in
production order, each tagged with its position as sequence number, with
nothing in flight and nothing emitted. -/
def initDispatcher (units : List (String × SynthSpec)) : DispatcherState :=
  ⟨(units.enum).map (fun p => ⟨p.1, p.2.1, p.2.2⟩), none, []⟩

/-- The sequence numbers of the chunks emitted so far, in emission order. -/
def emittedSeqs (s : DispatcherState) : List Nat :=
  s.emitted.map (fun c => c.1)

/-- Sequence numbers still ahead of the emission boundary: the in-flight
task's (if any) followed by the pending ones. -/
def aheadSeqs (s : DispatcherState) : List Nat :=
  (match s.inflight with
   | some (t, _) => [t.sequence]
   | none => []) ++ s.pending.map (fun t => t.sequence)

/-- Ticks needed to fully drain a task list: each task is started (one
step), runs `latency` ticks, and completes (one step). -/
def totalTicks (tasks : List DispatchTask) : Nat :=
  (tasks.map (fun t => t.synth.latency + 2)).sum

/-- Whether a synthesis result is truthy in the JS sense (`if (audio)`). -/
def truthy : Option String → Bool
  | some a => a ≠ ""
  | none => false

/-- The sequence numbers still owed plus those emitted, in pipeline
order: the emission boundary can only move left-to-right along this
list. -/
def lineSeqs (s : DispatcherState) : List Nat :=
  emittedSeqs s ++ aheadSeqs s

end VoiceAi

namespace Client

/-- A transcript entry in the client's `messages` state. -/
structure Entry where
  role : String
  content : String
deriving DecidableEq

/-- One item of `audioQueueRef`: the `audio` field of the wire message
(absent — `undefined` — on messages that carry none) and its text. -/
structure QueueItem where
  audio : Option String
  text : String
deriving DecidableEq

/-- A parsed wire message as the client handler sees it: its `type` tag,
its `text`, and its `audio` field when present. -/
structure WireData where
  type : String
  text : String
  audio : Option String
deriving DecidableEq

/-- The client state touched by `ws.onmessage`
(useVoiceChat.ts lines 46-104): the transcript, the playback queue, and a
ghost counter of how many times `playNextInQueue` was invoked by the
handler. -/
structure ClientState where
  messages : List Entry
  queue : List QueueItem
  playCalls : Nat
deriving DecidableEq

/-- The `case "text"` body (lines 67-72): append one user entry. -/
def textCase (st : ClientState) (d : WireData) : ClientState :=
  { st with messages := st.messages ++ [⟨"user", d.text⟩] }

/-- The `case "audio"` body (lines 74-97): push `{audio, text}` onto the
playback queue; then extend the last transcript entry if it is an
assistant entry, else append a new assistant entry; then invoke
`playNextInQueue`. -/
def audioCase (st : ClientState) (d : WireData) : ClientState :=
  let q := st.queue ++ [⟨d.audio, d.text⟩]
  let msgs :=
    match st.messages.getLast? with
    | some last =>
      if last.role = "assistant" then
        st.messages.dropLast ++ [⟨last.role, last.content ++ " " ++ d.text⟩]
      else st.messages ++ [⟨"assistant", d.text⟩]
    | none => st.messages ++ [⟨"assistant", d.text⟩]
  { messages := msgs, queue := q, playCalls := st.playCalls + 1 }

/-- The `ws.onmessage` switch (useVoiceChat.ts lines 49-104), reproduced
faithfully: the `case "text"` block has no `break`, so a `"text"` message
runs the text case and then falls through into the `case "audio"` body.
`"status"` and `"error"` messages touch neither the transcript nor the
queue. -/
def onMessage (st : ClientState) (d : WireData) : ClientState :=
  if d.type = "status" then st
  else if d.type = "text" then audioCase (textCase st d) d
  else if d.type = "audio" then audioCase st d
  else if d.type = "error" then st
  else st

/-- Whether an item's playback starts successfully: a missing or empty
`audio` string throws `"No audio data received"` before anything plays
(useVoiceChat.ts lines 157-159); for non-empty audio, `ok` abstracts
whether blob decoding and `audioElement.play()` succeed. -/
def startOk (ok : String → Bool) (item : QueueItem) : Bool :=
  match item.audio with
  | none => false
  | some a => if a = "" then false else ok a

/-- The playback state of `useVoiceChat`: the FIFO `audioQueueRef`, the
`isPlayingRef` flag, the at-most-one currently audible item, and ghost
histories — texts whose playback started, texts whose playback completed
(normal end or error), texts skipped because playback could not start,
and how many object URLs were revoked. -/
structure PlaybackState where
  queue : List QueueItem
  isPlaying : Bool
  audible : Option QueueItem
  started : List String
  completed : List String
  skipped : List String
  revoked : Nat
deriving DecidableEq

/-- `playNextInQueue` (useVoiceChat.ts lines 148-194): return if already
playing or the queue is empty; otherwise shift the head item and start its
playback. If starting fails (missing audio, blob decode failure, or
`play()` rejecting), the catch clears `isPlayingRef` and recurses on the
rest of the queue. -/
def playNext (ok : String → Bool) (st : PlaybackState) : PlaybackState :=
  if st.isPlaying then st
  else
    match h : st.queue with
    | [] => st
    | item :: rest =>
      if startOk ok item then
        { st with
          queue := rest
          isPlaying := true
          audible := some item
          started := st.started ++ [item.text] }
      else
        playNext ok { st with queue := rest, skipped := st.skipped ++ [item.text] }
termination_by st.queue.length
decreasing_by simp [h]

/-- An observable playback event: a speech chunk arriving from the
socket (the `case "audio"` push followed by its `playNextInQueue` call),
or the audible item finishing — `onended` and `onerror` both run the same
`revokeUrl` continuation, which revokes the object URL, clears
`isPlayingRef`, and calls `playNextInQueue` again. -/
inductive PbEvent where
  | arrive (item : QueueItem)
  | finish
deriving DecidableEq

/-- Applies one playback event to the state. -/
def pbStep (ok : String → Bool) (st : PlaybackState) : PbEvent → PlaybackState
  | .arrive item => playNext ok { st with queue := st.queue ++ [item] }
  | .finish =>
    match st.audible with
    | none => st
    | some item =>
      playNext ok { st with
        isPlaying := false
        audible := none
        completed := st.completed ++ [item.text]
        revoked := st.revoked + 1 }

/-- Applies a list of playback events in order. -/
def pbRun (ok : String → Bool) (st : PlaybackState) (evs : List PbEvent) : PlaybackState :=
  evs.foldl (pbStep ok) st

/-- The idle initial playback state. -/
def pbInit : PlaybackState :=
  ⟨[], false, none, [], [], [], 0⟩

end Client

namespace Codec

/-- `Math.max(-1, Math.min(1, samples[i]))` (utils.ts line 110). -/
def clampSample (s : ℚ) : ℚ := max (-1) (min 1 s)

/-- Truncation toward zero, as JS `ToIntegerOrInfinity` performs on the
value passed to `DataView.setInt16`. -/
def ratTrunc (q : ℚ) : ℤ := if q < 0 then ⌈q⌉ else ⌊q⌋

/-- The 16-bit PCM integer of one sample (utils.ts lines 110-111): clamp
to `[-1,1]`, then scale by `0x8000` if negative else `0x7fff`. -/
def pcm16OfSample (s : ℚ) : ℤ :=
  let c := clampSample s
  if c < 0 then ratTrunc (c * 32768) else ratTrunc (c * 32767)

/-- The byte codes of an ASCII string, as `writeString` stores them. -/
def asciiCodes (s : String) : List Nat := s.data.map Char.toNat

/-- A 16-bit unsigned little-endian value as two bytes. -/
def u16le (n : Nat) : List Nat := [n % 256, n / 256 % 256]

/-- A 32-bit unsigned little-endian value as four bytes. -/
def u32le (n : Nat) : List Nat :=
  [n % 256, n / 256 % 256, n / 65536 % 256, n / 16777216 % 256]

/-- A signed 16-bit little-endian value: `setInt16` stores the value
modulo `2^16` (two's complement) in little-endian byte order. -/
def i16le (z : ℤ) : List Nat := u16le (z % 65536).toNat

/-- The 44-byte canonical WAV header written by `encodeWavPCM16`
(utils.ts lines 72-105): RIFF chunk with file size, WAVE tag, `fmt `
subchunk (PCM, mono, sample rate, byte rate, block align 2, 16 bits per
sample), and the `data` subchunk size. -/
def wavHeader (numSamples sampleRate : Nat) : List Nat :=
  let dataSize := numSamples * 2
  let bufferSize := 44 + dataSize
  asciiCodes "RIFF" ++ u32le (bufferSize - 8) ++ asciiCodes "WAVE" ++
  asciiCodes "fmt " ++ u32le 16 ++ u16le 1 ++ u16le 1 ++ u32le sampleRate ++
  u32le (sampleRate * 2) ++ u16le 2 ++ u16le 16 ++
  asciiCodes "data" ++ u32le dataSize

/-- `encodeWavPCM16` (utils.ts lines 57-117): the header followed by the
PCM-encoded samples, two bytes each, little-endian. -/
def encodeWavPCM16 (samples : List ℚ) (sampleRate : Nat) : List Nat :=
  wavHeader samples.length sampleRate ++
  samples.flatMap (fun s => i16le (pcm16OfSample s))

/-- Reads one little-endian signed 16-bit value out of two bytes. -/
def decodeI16 (lo hi : Nat) : ℤ :=
  if lo + 256 * hi < 32768 then ((lo + 256 * hi : Nat) : ℤ)
  else ((lo + 256 * hi : Nat) : ℤ) - 65536

/-- Reads consecutive little-endian signed 16-bit values. -/
def pcmOfBytes : List Nat → List ℤ
  | lo :: hi :: rest => decodeI16 lo hi :: pcmOfBytes rest
  | _ => []

/-- Modelled from the spec: the repository ships no WAV decoder, so
"decoding the PCM samples out of an encoded WAV container" reads the
little-endian signed 16-bit samples that follow the 44-byte header and
maps each PCM integer back to a float sample with the inverse of the
encoder's scaling — divide by 32767 when non-negative, by 32768 when
negative. -/
def decodeWavSamples (bytes : List Nat) : List ℚ :=
  (pcmOfBytes (bytes.drop 44)).map
    (fun z : ℤ => if z < 0 then (z : ℚ) / 32768 else (z : ℚ) / 32767)

/-- Whether `pat` occurs as a contiguous run in `l`
(`String.prototype.includes` on the decoded prefix). -/
def includesSeq (pat : List Nat) : List Nat → Bool
  | [] => pat.isEmpty
  | x :: t => pat.isPrefixOf (x :: t) || includesSeq pat t

/-- The byte codes of `"RIFF"`. -/
def riffSig : List Nat := [82, 73, 70, 70]

/-- The byte codes of `"WAVE"`. -/
def waveSig : List Nat := [87, 65, 86, 69]

/-- `sniffAudioMime` (utils.ts lines 28-49), expressed on the decoded
payload bytes. The source receives the base64 string: its guard
`base64.length < 20` counts base64 characters — a payload of `n` bytes
encodes to `4 * ((n + 2) / 3)` characters — and
`atob(base64.substring(0, 20))` yields the first `min 15 n` payload
bytes. `charCodeAt` out of range yields NaN, which fails the 255
comparison, as byte default 0 does here. -/
def sniffAudioMime (payload : List Nat) : String :=
  if 4 * ((payload.length + 2) / 3) < 20 then "audio/wav"
  else
    let decoded := payload.take 15
    if riffSig.isPrefixOf decoded && includesSeq waveSig decoded then "audio/wav"
    else if decoded.headD 0 == 255 && (decoded.getD 1 0) &&& 224 == 224 then
      "audio/mpeg"
    else "audio/wav"

/-- A payload carrying the canonical `RIFF....WAVE` signature: `RIFF` at
offset 0 and `WAVE` at offset 8. -/
def riffWaveSig (payload : List Nat) : Prop :=
  payload.take 4 = riffSig ∧ (payload.drop 8).take 4 = waveSig

end Codec

section ServerTheorems

open VoiceAi

/-- Claim C5: when transcription of an inbound audio frame returns empty
or null, the server emits exactly a `Processing....` status followed by
an `Idle` status, emits no `text` and no `audio` events, and the turn
history is unchanged — no turn appended and no pipeline work started. -/
theorem empty_transcription_aborts_turn (history : List Turn)
    (tr : TranscribeResult) (stream : CompletionStream)
    (tts : String → Option String) (h : transcribeAudio tr = none) :
    handleMessage history tr stream tts =
      ([ServerMsg.status "Processing....", ServerMsg.status "Idle"], history) := by
  simp [handleMessage, handleAudioInput, h]

/-- Witness for the empty-transcription abort: one second of silence
transcribed to the empty string, with history of length 0. -/
theorem empty_transcription_aborts_turn_witness :
    transcribeAudio (TranscribeResult.returns "") = none ∧
    handleMessage [] (TranscribeResult.returns "")
        ⟨["Hi."], StreamOutcome.ok⟩ (fun _ => some "a") =
      ([ServerMsg.status "Processing....", ServerMsg.status "Idle"], []) :=
  ⟨by decide, empty_transcription_aborts_turn [] _ _ _ (by decide)⟩

/-- Claim C10: the transcription wrapper never propagates an exception —
a raising transcription capability is caught and converted to the null
result, so it takes exactly the same silent abort-turn path (Processing
then Idle, no error message, history unchanged) as an empty
transcription. -/
theorem raising_transcription_same_as_empty (m : String) (history : List Turn)
    (stream : CompletionStream) (tts : String → Option String) :
    transcribeAudio (TranscribeResult.raises m) = none ∧
    handleMessage history (TranscribeResult.raises m) stream tts =
      ([ServerMsg.status "Processing....", ServerMsg.status "Idle"], history) ∧
    handleMessage history (TranscribeResult.raises m) stream tts =
      handleMessage history (TranscribeResult.returns "") stream tts := by
  refine ⟨rfl, ?_, ?_⟩ <;>
    simp [handleMessage, handleAudioInput, transcribeAudio]

/-- Claim C3: when the completion stream ends normally (the concurrency-1
synthesis queue then drains before `onIdle` resolves), exactly one
assistant turn is appended after the user turn, its content is the
flushed sentence texts joined with single spaces, and the final event is
an `Idle` status. -/
theorem normal_turn_commits_one_assistant (history : List Turn)
    (tr : TranscribeResult) (t : String) (chunks : List String)
    (tts : String → Option String) (h : transcribeAudio tr = some t) :
    handleMessage history tr ⟨chunks, StreamOutcome.ok⟩ tts =
      (ServerMsg.status "Processing...." :: ServerMsg.text t ::
        ((sentencesOf chunks).flatMap
          (fun s => ServerMsg.status "Speaking..." :: ttsEmit (tts s) s) ++
          [ServerMsg.status "Idle"]),
       history ++ [⟨"user", t⟩, ⟨"assistant", joinSpace (sentencesOf chunks)⟩]) := by
  simp [handleMessage, handleAudioInput, generateAndSpeakResponse, h]

/-- Witness for the normal-turn commit: two sentence chunks, both
synthesized, committed as one assistant turn joined with a space. -/
theorem normal_turn_commits_one_assistant_witness :
    transcribeAudio (TranscribeResult.returns "Hello") = some "Hello" ∧
    handleMessage [] (TranscribeResult.returns "Hello")
        ⟨["Hello there.", " How can I help?"], StreamOutcome.ok⟩ (fun _ => some "AUDIO") =
      ([ServerMsg.status "Processing....", ServerMsg.text "Hello",
        ServerMsg.status "Speaking...", ServerMsg.audio "Hello there." "AUDIO",
        ServerMsg.status "Speaking...", ServerMsg.audio "How can I help?" "AUDIO",
        ServerMsg.status "Idle"],
       [⟨"user", "Hello"⟩, ⟨"assistant", "Hello there. How can I help?"⟩]) := by
  refine ⟨by decide, ?_⟩
  rw [normal_turn_commits_one_assistant [] _ "Hello" _ _ (by decide)]
  decide

/-- No handler path ever emits `close`: helper for session-stays-open
conclusions. -/
theorem close_not_in_ttsEmit (r : Option String) (s : String) :
    ServerMsg.close ∉ ttsEmit r s := by
  cases r with
  | none => simp [ttsEmit]
  | some a =>
    by_cases ha : a = "" <;> simp [ttsEmit, ha]

/-- Claim C4: if the completion stream raises mid-stream, no assistant
turn is committed (the history gains only the already-appended user
turn), an `error` message carrying the failure description is emitted,
and the session is not closed — the listener stays attached, so the next
audio frame is handled normally. -/
theorem stream_failure_keeps_session_open (history : List Turn)
    (tr : TranscribeResult) (t : String) (chunks : List String) (msg : String)
    (tts : String → Option String) (h : transcribeAudio tr = some t) :
    (handleMessage history tr ⟨chunks, StreamOutcome.raises msg⟩ tts).2 =
      history ++ [⟨"user", t⟩] ∧
    ServerMsg.error msg ∈ (handleMessage history tr ⟨chunks, StreamOutcome.raises msg⟩ tts).1 ∧
    ServerMsg.close ∉ (handleMessage history tr ⟨chunks, StreamOutcome.raises msg⟩ tts).1 := by
  refine ⟨?_, ?_, ?_⟩ <;>
    simp [handleMessage, handleAudioInput, generateAndSpeakResponse, h,
      close_not_in_ttsEmit]

/-- Witness for the mid-stream failure path at a concrete input. -/
theorem stream_failure_keeps_session_open_witness :
    transcribeAudio (TranscribeResult.returns "Hi") = some "Hi" ∧
    ((handleMessage [] (TranscribeResult.returns "Hi")
        ⟨["One."], StreamOutcome.raises "boom"⟩ (fun _ => some "A")).2 =
      [⟨"user", "Hi"⟩] ∧
     ServerMsg.error "boom" ∈ (handleMessage [] (TranscribeResult.returns "Hi")
        ⟨["One."], StreamOutcome.raises "boom"⟩ (fun _ => some "A")).1 ∧
     ServerMsg.close ∉ (handleMessage [] (TranscribeResult.returns "Hi")
        ⟨["One."], StreamOutcome.raises "boom"⟩ (fun _ => some "A")).1) :=
  ⟨by decide,
   stream_failure_keeps_session_open [] _ "Hi" _ "boom" _ (by decide)⟩

/-- `audioEvents` distributes over append. -/
theorem audioEvents_append (a b : List ServerMsg) :
    audioEvents (a ++ b) = audioEvents a ++ audioEvents b := by
  induction a with
  | nil => rfl
  | cons x rest ih =>
    cases x <;> simp [audioEvents, ih]

/-- One synthesis task's audio events are exactly its truthy result. -/
theorem audioEvents_ttsEmit (r : Option String) (s : String) :
    audioEvents (ttsEmit r s) = (emitOf r s).toList := by
  cases r with
  | none => rfl
  | some a => by_cases ha : a = "" <;> simp [ttsEmit, emitOf, ha, audioEvents]

/-- The audio events of the per-sentence emission are exactly the truthy
synthesis results. -/
theorem audioEvents_flatMap (f : String → Option String) (sents : List String) :
    audioEvents (sents.flatMap (fun s => ServerMsg.status "Speaking..." :: ttsEmit (f s) s)) =
      sents.filterMap (fun s => emitOf (f s) s) := by
  induction sents with
  | nil => rfl
  | cons s rest ih =>
    rw [List.flatMap_cons, List.filterMap_cons]
    show audioEvents (ttsEmit (f s) s ++ _) = _
    rw [audioEvents_append, audioEvents_ttsEmit, ih]
    cases emitOf (f s) s <;> simp

/-- Claim C6: a unit whose synthesis raises is caught and treated as no
audio (`textToSpeech` returns null rather than propagating), a unit with
no usable audio produces no speech chunk, and the audio events of the
whole turn are exactly the truthy synthesis results of the sentence
units, in their original order — later units are unaffected by earlier
failures. -/
theorem synthesis_failures_dropped_in_order :
    (∀ m, textToSpeech (TtsRaw.raises m) = none) ∧
    (∀ (history : List Turn) (stream : CompletionStream) (raw : String → TtsRaw),
      audioEvents (generateAndSpeakResponse history stream
          (fun s => textToSpeech (raw s))).1 =
        (sentencesOf stream.chunks).filterMap
          (fun s => emitOf (textToSpeech (raw s)) s)) := by
  refine ⟨fun m => rfl, fun history stream raw => ?_⟩
  cases stream with
  | mk chunks outcome =>
    cases outcome <;>
      simp [generateAndSpeakResponse, audioEvents_flatMap]

/-- `dispatchRun` splits over addition. -/
theorem dispatchRun_add (a b : Nat) (s : DispatcherState) :
    dispatchRun (a + b) s = dispatchRun b (dispatchRun a s) := by
  induction a generalizing s with
  | zero => simp [dispatchRun]
  | succ m ih =>
    rw [Nat.succ_add]
    simp only [dispatchRun]
    exact ih (dispatchStep s)

/-- One scheduler step only ever removes entries from the pipeline-order
list (a dropped unit disappears; everything else keeps its place). -/
theorem step_lineSeqs_sublist (s : DispatcherState) :
    List.Sublist (lineSeqs (dispatchStep s)) (lineSeqs s) := by
  obtain ⟨p, infl, em⟩ := s
  cases infl with
  | none =>
    cases p with
    | nil => exact List.Sublist.refl _
    | cons t rest =>
      simp [dispatchStep, lineSeqs, emittedSeqs, aheadSeqs]
  | some tk =>
    obtain ⟨t, k⟩ := tk
    cases k with
    | succ m =>
      simp [dispatchStep, lineSeqs, emittedSeqs, aheadSeqs]
    | zero =>
      simp only [dispatchStep, lineSeqs, emittedSeqs, aheadSeqs, List.map_append]
      rw [List.append_assoc]
      refine List.Sublist.append_left ?_ _
      cases hr : t.synth.result with
      | none => simp [emitChunk, hr]
      | some a =>
        by_cases ha : a = "" <;>
          simp [emitChunk, hr, ha]

/-- Any number of steps only removes entries from the pipeline-order
list. -/
theorem run_lineSeqs_sublist (n : Nat) (s : DispatcherState) :
    List.Sublist (lineSeqs (dispatchRun n s)) (lineSeqs s) := by
  induction n generalizing s with
  | zero => exact List.Sublist.refl _
  | succ m ih =>
    simp only [dispatchRun]
    exact (ih (dispatchStep s)).trans (step_lineSeqs_sublist s)

/-- The initial pipeline-order list is `0, 1, ..., N-1`. -/
theorem lineSeqs_init (units : List (String × SynthSpec)) :
    lineSeqs (initDispatcher units) = List.range units.length := by
  simp [lineSeqs, initDispatcher, emittedSeqs, aheadSeqs, List.map_map]
  have : ((fun t : DispatchTask => t.sequence) ∘
      fun p : Nat × String × SynthSpec => DispatchTask.mk p.1 p.2.1 p.2.2) =
      Prod.fst := rfl
  rw [this, List.enum_map_fst]

/-- Ticking down an in-flight synthesis changes nothing else. -/
theorem dispatchRun_ticks (k : Nat) (p : List DispatchTask) (t : DispatchTask)
    (em : List (Nat × String × String)) :
    dispatchRun k ⟨p, some (t, k), em⟩ = ⟨p, some (t, 0), em⟩ := by
  induction k with
  | zero => rfl
  | succ m ih =>
    simp only [dispatchRun, dispatchStep]
    exact ih

/-- One task occupies the queue for `latency + 2` steps: start, run,
complete-and-emit. -/
theorem dispatchRun_task (t : DispatchTask) (rest : List DispatchTask)
    (em : List (Nat × String × String)) :
    dispatchRun (t.synth.latency + 2) ⟨t :: rest, none, em⟩ =
      ⟨rest, none, em ++ emitChunk t⟩ := by
  have h2 : t.synth.latency + 2 = (1 + t.synth.latency) + 1 := by omega
  rw [h2, dispatchRun_add, dispatchRun_add]
  have h3 : dispatchRun 1 (⟨t :: rest, none, em⟩ : DispatcherState) =
      ⟨rest, some (t, t.synth.latency), em⟩ := rfl
  rw [h3, dispatchRun_ticks]
  rfl

/-- The idle dispatcher stays idle. -/
theorem dispatchRun_idle (n : Nat) (em : List (Nat × String × String)) :
    dispatchRun n ⟨[], none, em⟩ = ⟨[], none, em⟩ := by
  induction n with
  | zero => rfl
  | succ m ih =>
    simp only [dispatchRun, dispatchStep]
    exact ih

/-- After `totalTicks` steps the whole queue has drained, each task
having appended its chunk (if any) in queue order. -/
theorem dispatchRun_drain (tasks : List DispatchTask)
    (em : List (Nat × String × String)) :
    dispatchRun (totalTicks tasks) ⟨tasks, none, em⟩ =
      ⟨[], none, em ++ tasks.flatMap emitChunk⟩ := by
  induction tasks generalizing em with
  | nil => simp [totalTicks, dispatchRun]
  | cons t rest ih =>
    have h1 : totalTicks (t :: rest) = (t.synth.latency + 2) + totalTicks rest := by
      simp [totalTicks]
    rw [h1, dispatchRun_add, dispatchRun_task, ih]
    simp

/-- A task list whose synthesis results are all truthy emits every chunk. -/
theorem flatMap_emitChunk_truthy (tasks : List DispatchTask)
    (h : ∀ t ∈ tasks, truthy t.synth.result = true) :
    tasks.flatMap emitChunk =
      tasks.map (fun t => (t.sequence, t.text, t.synth.result.getD "")) := by
  induction tasks with
  | nil => rfl
  | cons t rest ih =>
    have ht := h t (by simp)
    have hrest : ∀ u ∈ rest, truthy u.synth.result = true :=
      fun u hu => h u (by simp [hu])
    cases hr : t.synth.result with
    | none => simp [truthy, hr] at ht
    | some a =>
      have ha : a ≠ "" := by
        intro he
        simp [truthy, hr, he] at ht
      simp [emitChunk, hr, ha, ih hrest]

/-- Claim C1: for any turn's sentence units, whatever the latency of each
synthesis call, the chunks emitted to the transport keep the production
order — the emitted sequence numbers are a subsequence of `0..N-1` and
strictly increasing at every instant, with no reordering — and once every
result is truthy and the queue has had time to drain, every unit's chunk
has been emitted, in exactly production order with no gaps. The
concurrency-1 queue holds at most one synthesis result in flight toward
emission at a time (the `inflight` slot). -/
theorem dispatcher_emits_in_production_order
    (units : List (String × SynthSpec)) (n : Nat) :
    List.Sublist (emittedSeqs (dispatchRun n (initDispatcher units)))
      (List.range units.length) ∧
    List.Pairwise (· < ·) (emittedSeqs (dispatchRun n (initDispatcher units))) ∧
    ((∀ u ∈ units, truthy u.2.result = true) →
      totalTicks (initDispatcher units).pending ≤ n →
      (dispatchRun n (initDispatcher units)).emitted =
        units.enum.map (fun p => (p.1, p.2.1, p.2.2.result.getD ""))) := by
  have hline : List.Sublist (lineSeqs (dispatchRun n (initDispatcher units)))
      (List.range units.length) := by
    rw [← lineSeqs_init]
    exact run_lineSeqs_sublist n _
  have hsub : List.Sublist (emittedSeqs (dispatchRun n (initDispatcher units)))
      (List.range units.length) :=
    ((List.sublist_append_left _ _).trans hline)
  refine ⟨hsub, (List.pairwise_lt_range _).sublist hsub, fun hall hn => ?_⟩
  obtain ⟨extra, hextra⟩ := Nat.le.dest hn
  have htr : ∀ t ∈ (initDispatcher units).pending, truthy t.synth.result = true := by
    intro t ht
    simp only [initDispatcher, List.mem_map] at ht
    obtain ⟨p, hp, rfl⟩ := ht
    have hmem : p.2 ∈ units := List.getElem?_mem (List.mem_enum_iff_getElem?.1 hp)
    exact hall p.2 hmem
  rw [← hextra, dispatchRun_add]
  have hinit : initDispatcher units =
      ⟨(initDispatcher units).pending, none, []⟩ := rfl
  rw [hinit, dispatchRun_drain, dispatchRun_idle]
  simp only [List.nil_append]
  rw [flatMap_emitChunk_truthy _ htr]
  simp only [initDispatcher, List.map_map]
  rfl

/-- Witness for the dispatcher ordering theorem: three units whose
synthesis latencies (3, 0, 1 ticks) would complete out of order if run in
parallel, drained in 11 steps, emit in exactly production order. -/
theorem dispatcher_emits_in_production_order_witness :
    (∀ u ∈ ([("a", ⟨3, some "x"⟩), ("b", ⟨0, some "y"⟩), ("c", ⟨1, some "z"⟩)] :
        List (String × SynthSpec)), truthy u.2.result = true) ∧
    totalTicks (initDispatcher
      ([("a", ⟨3, some "x"⟩), ("b", ⟨0, some "y"⟩), ("c", ⟨1, some "z"⟩)] :
        List (String × SynthSpec))).pending ≤ 11 ∧
    (dispatchRun 11 (initDispatcher
      ([("a", ⟨3, some "x"⟩), ("b", ⟨0, some "y"⟩), ("c", ⟨1, some "z"⟩)] :
        List (String × SynthSpec)))).emitted =
      [(0, "a", "x"), (1, "b", "y"), (2, "c", "z")] := by
  refine ⟨by decide, by decide, ?_⟩
  have h := (dispatcher_emits_in_production_order
      [("a", ⟨3, some "x"⟩), ("b", ⟨0, some "y"⟩), ("c", ⟨1, some "z"⟩)] 11).2.2
      (by decide) (by decide)
  rw [h]
  decide

end ServerTheorems

section ClientTheorems

open Client

/-- Claim C2 evaluated on the code: the `case "text"` block has no
`break`, so a transcript message falls through into the `case "audio"`
body — on an empty state, a `text` message with content `hi` not only
appends the user entry but also pushes an item with no audio onto the
playback queue, appends an assistant entry duplicating the text, and
invokes playback once. -/
theorem text_message_falls_through_to_audio_case :
    onMessage ⟨[], [], 0⟩ ⟨"text", "hi", none⟩ =
      ⟨[⟨"user", "hi"⟩, ⟨"assistant", "hi"⟩], [⟨none, "hi"⟩], 1⟩ ∧
    (onMessage ⟨[], [], 0⟩ ⟨"text", "hi", none⟩).queue.length = 1 ∧
    (onMessage ⟨[], [], 0⟩ ⟨"text", "hi", none⟩).playCalls = 1 := by
  refine ⟨?_, ?_, ?_⟩ <;> decide

/-- A busy `playNextInQueue` call returns immediately. -/
theorem playNext_busy (ok : String → Bool) (st : PlaybackState)
    (hp : st.isPlaying = true) : playNext ok st = st := by
  rw [playNext.eq_def, hp]
  simp

/-- `playNextInQueue` on an empty queue returns immediately. -/
theorem playNext_empty (ok : String → Bool) (st : PlaybackState)
    (hq : st.queue = []) : playNext ok st = st := by
  rw [playNext.eq_def]
  split
  · rfl
  · split
    · rfl
    · simp_all

/-- An idle `playNextInQueue` call with a startable head item shifts it
and starts its playback. -/
theorem playNext_start (ok : String → Bool) (st : PlaybackState)
    (item : QueueItem) (rest : List QueueItem) (hp : st.isPlaying = false)
    (hq : st.queue = item :: rest) (hok : startOk ok item = true) :
    playNext ok st =
      { st with
        queue := rest
        isPlaying := true
        audible := some item
        started := st.started ++ [item.text] } := by
  rw [playNext.eq_def, hp]
  simp only [Bool.false_eq_true, if_false]
  split
  · simp_all
  · rename_i item' rest' hq'
    rw [hq] at hq'
    obtain ⟨rfl, rfl⟩ : item = item' ∧ rest = rest' := by
      injection hq' with h1 h2
      exact ⟨h1, h2⟩
    rw [hok]
    simp

/-- An idle `playNextInQueue` call whose head item cannot start skips it
(the catch path) and recurses on the rest. -/
theorem playNext_skip (ok : String → Bool) (st : PlaybackState)
    (item : QueueItem) (rest : List QueueItem) (hp : st.isPlaying = false)
    (hq : st.queue = item :: rest) (hok : startOk ok item = false) :
    playNext ok st =
      playNext ok { st with queue := rest, skipped := st.skipped ++ [item.text] } := by
  conv_lhs => rw [playNext.eq_def]
  rw [hp]
  simp only [Bool.false_eq_true, if_false]
  split
  · simp_all
  · rename_i item' rest' hq'
    rw [hq] at hq'
    obtain ⟨rfl, rfl⟩ : item = item' ∧ rest = rest' := by
      injection hq' with h1 h2
      exact ⟨h1, h2⟩
    rw [hok]
    simp

/-- `playNextInQueue` keeps the `isPlayingRef` flag equal to "some item
is audible". -/
theorem playNext_flag (ok : String → Bool) :
    ∀ (n : Nat) (st : PlaybackState), st.queue.length ≤ n →
    st.isPlaying = st.audible.isSome →
    (playNext ok st).isPlaying = (playNext ok st).audible.isSome := by
  intro n
  induction n with
  | zero =>
    intro st hn hinv
    have hq : st.queue = [] := List.eq_nil_of_length_eq_zero (Nat.le_zero.mp hn)
    rw [playNext_empty ok st hq]
    exact hinv
  | succ m ih =>
    intro st hn hinv
    by_cases hp : st.isPlaying = true
    · rw [playNext_busy ok st hp]
      exact hinv
    · have hp' : st.isPlaying = false := by simpa using hp
      cases hq : st.queue with
      | nil =>
        rw [playNext_empty ok st hq]
        exact hinv
      | cons item rest =>
        by_cases hok : startOk ok item = true
        · rw [playNext_start ok st item rest hp' hq hok]
          rfl
        · rw [playNext_skip ok st item rest hp' hq (by simpa using hok)]
          apply ih
          · have : st.queue.length ≤ m + 1 := hn
            rw [hq] at this
            simpa using Nat.lt_succ_iff.mp (Nat.lt_of_lt_of_le (Nat.lt_succ_self _) this)
          · have ha : st.audible = none := by
              cases h : st.audible with
              | none => rfl
              | some x => rw [h] at hinv; simp [hp'] at hinv
            simp [hp', ha]

/-- Each playback event keeps the flag equal to "some item is audible". -/
theorem pbStep_flag (ok : String → Bool) (st : PlaybackState) (e : PbEvent)
    (hinv : st.isPlaying = st.audible.isSome) :
    (pbStep ok st e).isPlaying = (pbStep ok st e).audible.isSome := by
  cases e with
  | arrive item =>
    exact playNext_flag ok _ _ (Nat.le_refl _) hinv
  | finish =>
    cases ha : st.audible with
    | none => simpa [pbStep, ha] using hinv
    | some x =>
      simp only [pbStep, ha]
      exact playNext_flag ok _ _ (Nat.le_refl _) rfl

/-- Any event sequence keeps the flag equal to "some item is audible". -/
theorem pbRun_flag (ok : String → Bool) (evs : List PbEvent) :
    ∀ st : PlaybackState, st.isPlaying = st.audible.isSome →
    (pbRun ok st evs).isPlaying = (pbRun ok st evs).audible.isSome := by
  induction evs with
  | nil => intro st h; exact h
  | cons e rest ih =>
    intro st h
    exact ih _ (pbStep_flag ok st e h)

/-- A chunk arriving while an item is audible is only appended to the
queue tail — nothing else changes, so no second playback starts. -/
theorem pbStep_arrive_busy (ok : String → Bool) (st : PlaybackState)
    (item : QueueItem) (hp : st.isPlaying = true) :
    pbStep ok st (PbEvent.arrive item) = { st with queue := st.queue ++ [item] } := by
  simp only [pbStep]
  exact playNext_busy ok _ hp

/-- Arrivals while busy accumulate on the queue tail in arrival order. -/
theorem pbRun_arrivals_busy (ok : String → Bool) (xs : List QueueItem) :
    ∀ st : PlaybackState, st.isPlaying = true →
    pbRun ok st (xs.map PbEvent.arrive) = { st with queue := st.queue ++ xs } := by
  induction xs with
  | nil =>
    intro st _
    simp [pbRun]
  | cons x rest ih =>
    intro st hp
    simp only [List.map_cons, pbRun, List.foldl_cons]
    rw [show List.foldl (pbStep ok) (pbStep ok st (PbEvent.arrive x))
        (rest.map PbEvent.arrive) =
        pbRun ok (pbStep ok st (PbEvent.arrive x)) (rest.map PbEvent.arrive) from rfl]
    rw [pbStep_arrive_busy ok st x hp,
      ih ({ st with queue := st.queue ++ [x] }) hp]
    simp

/-- From idle, the first arriving startable chunk begins playing at once
and later arrivals queue behind it. -/
theorem pbRun_arrivals_init (ok : String → Bool) (x : QueueItem)
    (xs : List QueueItem) (hok : startOk ok x = true) :
    pbRun ok pbInit ((x :: xs).map PbEvent.arrive) =
      ⟨xs, true, some x, [x.text], [], [], 0⟩ := by
  simp only [List.map_cons, pbRun, List.foldl_cons]
  have h1 : pbStep ok pbInit (PbEvent.arrive x) =
      ⟨[], true, some x, [x.text], [], [], 0⟩ := by
    simp only [pbStep, pbInit]
    rw [playNext_start ok _ x [] rfl rfl hok]
    rfl
  rw [show List.foldl (pbStep ok) (pbStep ok pbInit (PbEvent.arrive x))
      (xs.map PbEvent.arrive) =
      pbRun ok (pbStep ok pbInit (PbEvent.arrive x)) (xs.map PbEvent.arrive) from rfl]
  rw [h1, pbRun_arrivals_busy ok xs _ rfl]
  rfl

/-- While an item is audible and all queued items are startable, each
completion event finishes the audible item (revoking its URL) and starts
the next queued one; after `queue length + 1` completions everything has
played, in queue order. -/
theorem pbRun_finishes (ok : String → Bool) (q : List QueueItem) :
    ∀ (st : PlaybackState) (x : QueueItem), st.queue = q →
    st.isPlaying = true → st.audible = some x →
    (∀ it ∈ q, startOk ok it = true) →
    pbRun ok st (List.replicate (q.length + 1) PbEvent.finish) =
      { st with
        queue := []
        isPlaying := false
        audible := none
        started := st.started ++ q.map QueueItem.text
        completed := st.completed ++ x.text :: q.map QueueItem.text
        revoked := st.revoked + q.length + 1 } := by
  induction q with
  | nil =>
    intro st x hq hp ha _
    simp only [List.length_nil, Nat.zero_add, List.replicate, pbRun,
      List.foldl_cons, List.foldl_nil]
    simp only [pbStep, ha]
    rw [playNext_empty ok
      { st with
        isPlaying := false
        audible := none
        completed := st.completed ++ [x.text]
        revoked := st.revoked + 1 } hq]
    simp [hq]
  | cons y rest ih =>
    intro st x hq hp ha hall
    have hlen : (y :: rest).length + 1 = (rest.length + 1) + 1 := by simp
    rw [hlen, List.replicate_succ]
    simp only [pbRun, List.foldl_cons]
    have hstep : pbStep ok st PbEvent.finish =
        { st with
          queue := rest
          isPlaying := true
          audible := some y
          completed := st.completed ++ [x.text]
          started := st.started ++ [y.text]
          revoked := st.revoked + 1 } := by
      simp only [pbStep, ha]
      rw [playNext_start ok _ y rest rfl (by simpa using hq)
        (hall y (by simp))]
    rw [show List.foldl (pbStep ok) (pbStep ok st PbEvent.finish)
        (List.replicate (rest.length + 1) PbEvent.finish) =
        pbRun ok (pbStep ok st PbEvent.finish)
          (List.replicate (rest.length + 1) PbEvent.finish) from rfl]
    rw [hstep, ih _ y rfl rfl rfl (fun it hit => hall it (by simp [hit]))]
    simp [List.append_assoc]
    omega

/-- Claim C7: in the client playback queue, at most one item is audible
at any instant — the busy flag always equals "an item is audible", and a
chunk arriving while busy only queues behind it — and on each completion
(normal end or error alike) the finished item's URL is revoked and the
next queued item begins; for N startable chunks received then N
completions, every chunk starts and completes exactly once, in arrival
order, with N URL revocations. -/
theorem playback_single_flight_fifo :
    (∀ (ok : String → Bool) (evs : List PbEvent),
      (pbRun ok pbInit evs).isPlaying = (pbRun ok pbInit evs).audible.isSome) ∧
    (∀ (ok : String → Bool) (st : PlaybackState) (item : QueueItem),
      st.isPlaying = true →
      pbStep ok st (PbEvent.arrive item) = { st with queue := st.queue ++ [item] }) ∧
    (∀ (ok : String → Bool) (items : List QueueItem),
      (∀ it ∈ items, startOk ok it = true) →
      pbRun ok pbInit (items.map PbEvent.arrive ++
          List.replicate items.length PbEvent.finish) =
        ⟨[], false, none, items.map QueueItem.text, items.map QueueItem.text,
          [], items.length⟩) := by
  refine ⟨fun ok evs => pbRun_flag ok evs pbInit rfl,
    fun ok st item hp => pbStep_arrive_busy ok st item hp,
    fun ok items hall => ?_⟩
  cases items with
  | nil => rfl
  | cons x xs =>
    rw [show pbRun ok pbInit ((x :: xs).map PbEvent.arrive ++
        List.replicate (x :: xs).length PbEvent.finish) =
        pbRun ok (pbRun ok pbInit ((x :: xs).map PbEvent.arrive))
          (List.replicate (x :: xs).length PbEvent.finish) from
      List.foldl_append ..]
    rw [pbRun_arrivals_init ok x xs (hall x (by simp))]
    rw [show (x :: xs).length = xs.length + 1 from rfl]
    rw [pbRun_finishes ok xs _ x rfl rfl rfl
      (fun it hit => hall it (by simp [hit]))]
    simp

/-- Witness for the playback queue: an arrival while busy only queues,
and three startable chunks arriving then finishing play exactly once
each, in arrival order, with three revocations. -/
theorem playback_single_flight_fifo_witness :
    pbStep (fun _ => true) ⟨[], true, some ⟨some "A", "t1"⟩, ["t1"], [], [], 0⟩
        (PbEvent.arrive ⟨some "B", "t2"⟩) =
      ⟨[⟨some "B", "t2"⟩], true, some ⟨some "A", "t1"⟩, ["t1"], [], [], 0⟩ ∧
    pbRun (fun _ => true) pbInit
        (([⟨some "a1", "c1"⟩, ⟨some "a2", "c2"⟩, ⟨some "a3", "c3"⟩] :
            List QueueItem).map PbEvent.arrive ++
          List.replicate 3 PbEvent.finish) =
      ⟨[], false, none, ["c1", "c2", "c3"], ["c1", "c2", "c3"], [], 3⟩ := by
  constructor
  · exact (playback_single_flight_fifo.2.1 (fun _ => true) _ _ rfl).trans (by decide)
  · exact (playback_single_flight_fifo.2.2 (fun _ => true)
      [⟨some "a1", "c1"⟩, ⟨some "a2", "c2"⟩, ⟨some "a3", "c3"⟩]
      (by decide)).trans (by decide)

end ClientTheorems

section CodecTheorems

open Codec

/-- The head of the decoded 15-byte prefix equals the payload head. -/
theorem headD_take15 (l : List Nat) : (l.take 15).headD 0 = l.headD 0 := by
  cases l <;> simp

/-- The second byte of the decoded 15-byte prefix equals the payload's. -/
theorem getD1_take15 (l : List Nat) : (l.take 15).getD 1 0 = l.getD 1 0 := by
  cases l with
  | nil => simp
  | cons a t => cases t <;> simp [List.getD]

/-- A pattern occurring as a prefix of `l.drop k` occurs in `l`. -/
theorem includesSeq_of_prefix_drop (pat : List Nat) :
    ∀ (k : Nat) (l : List Nat), pat.isPrefixOf (l.drop k) = true →
    includesSeq pat l = true := by
  intro k
  induction k with
  | zero =>
    intro l h
    cases l with
    | nil =>
      cases pat with
      | nil => rfl
      | cons p t => simp [List.isPrefixOf] at h
    | cons x t =>
      have hp : pat <+: x :: t := List.isPrefixOf_iff_prefix.mp (by simpa using h)
      simp [includesSeq, hp]
  | succ m ih =>
    intro l h
    cases l with
    | nil =>
      cases pat with
      | nil => rfl
      | cons p t => simp [List.isPrefixOf] at h
    | cons x t =>
      simp only [List.drop_succ_cons] at h
      simp [includesSeq, ih t h]

/-- A payload with the `RIFF....WAVE` signature and at least 13 bytes
passes both halves of the sniffing check. -/
theorem riffWaveSig_check (payload : List Nat) (hsig : riffWaveSig payload) :
    (riffSig.isPrefixOf (payload.take 15) &&
      includesSeq waveSig (payload.take 15)) = true := by
  obtain ⟨hriff, hwave⟩ := hsig
  rw [Bool.and_eq_true]
  constructor
  · rw [List.isPrefixOf_iff_prefix, ← hriff]
    rw [show payload.take 4 = (payload.take 15).take 4 by
      simp [List.take_take]]
    exact List.take_prefix 4 _
  · apply includesSeq_of_prefix_drop waveSig 8
    rw [List.isPrefixOf_iff_prefix]
    rw [List.drop_take 15 8 payload]
    rw [← hwave]
    rw [show (payload.drop 8).take 4 = ((payload.drop 8).take 7).take 4 by
      simp [List.take_take]]
    exact List.take_prefix 4 _

/-- Claim C9: the audio classifier inspects only the payload's leading
bytes and returns only `audio/wav` or `audio/mpeg`: the `RIFF....WAVE`
signature yields wav; a first byte `0xFF` whose successor has its top
three bits set yields mpeg (once the payload is long enough — at least 13
bytes — to pass the base64-length guard); anything else, including any
payload of at most 12 bytes (whose base64 is shorter than 20
characters), defaults to wav. -/
theorem sniff_classifies_by_leading_bytes (payload : List Nat) :
    (sniffAudioMime payload = "audio/wav" ∨ sniffAudioMime payload = "audio/mpeg") ∧
    (riffWaveSig payload → sniffAudioMime payload = "audio/wav") ∧
    (13 ≤ payload.length → payload.headD 0 = 255 →
      payload.getD 1 0 &&& 224 = 224 → sniffAudioMime payload = "audio/mpeg") ∧
    (payload.length ≤ 12 → sniffAudioMime payload = "audio/wav") ∧
    (¬(payload.headD 0 = 255 ∧ payload.getD 1 0 &&& 224 = 224) →
      sniffAudioMime payload = "audio/wav") := by
  by_cases hlen : 4 * ((payload.length + 2) / 3) < 20
  · have hs : sniffAudioMime payload = "audio/wav" := by
      simp [sniffAudioMime, hlen]
    exact ⟨Or.inl hs, fun _ => hs, fun h13 _ _ => absurd hlen (by omega),
      fun _ => hs, fun _ => hs⟩
  · have h13 : 13 ≤ payload.length := by omega
    by_cases hr : (riffSig.isPrefixOf (payload.take 15) &&
        includesSeq waveSig (payload.take 15)) = true
    · have hs : sniffAudioMime payload = "audio/wav" := by
        simp only [sniffAudioMime, if_neg hlen]
        simp [hr]
      refine ⟨Or.inl hs, fun _ => hs, fun _ hh _ => ?_, fun hsh => absurd h13 (by omega),
        fun _ => hs⟩
      exfalso
      obtain ⟨hpre, _⟩ := Bool.and_eq_true_iff.mp hr
      obtain ⟨a, rest, rfl⟩ : ∃ a rest, payload = a :: rest := by
        cases payload with
        | nil => simp at h13
        | cons a rest => exact ⟨a, rest, rfl⟩
      have ha : a = 255 := by simpa using hh
      rw [List.isPrefixOf_iff_prefix] at hpre
      rw [show (a :: rest).take 15 = a :: rest.take 14 from rfl] at hpre
      obtain ⟨t, ht⟩ := hpre
      rw [show riffSig = 82 :: [73, 70, 70] from rfl] at ht
      simp [ha] at ht
    · by_cases hm : ((payload.take 15).headD 0 == 255 &&
          ((payload.take 15).getD 1 0) &&& 224 == 224) = true
      · have hs : sniffAudioMime payload = "audio/mpeg" := by
          simp only [sniffAudioMime, if_neg hlen]
          rw [if_neg (by simpa using hr), if_pos hm]
        refine ⟨Or.inr hs, fun hsig => ?_, fun _ _ _ => hs,
          fun hsh => absurd h13 (by omega), fun hneg => ?_⟩
        · exact absurd (riffWaveSig_check payload hsig) hr
        · exfalso
          apply hneg
          obtain ⟨hh, ht⟩ := Bool.and_eq_true_iff.mp hm
          rw [headD_take15] at hh
          rw [getD1_take15] at ht
          exact ⟨beq_iff_eq.mp hh, beq_iff_eq.mp ht⟩
      · have hs : sniffAudioMime payload = "audio/wav" := by
          simp only [sniffAudioMime, if_neg hlen]
          rw [if_neg (by simpa using hr), if_neg (by simpa using hm)]
        refine ⟨Or.inl hs, fun _ => hs, fun _ hh ht => ?_,
          fun hsh => absurd h13 (by omega), fun _ => hs⟩
        exfalso
        apply hm
        rw [Bool.and_eq_true]
        refine ⟨?_, ?_⟩
        · rw [headD_take15]
          exact beq_iff_eq.mpr hh
        · rw [getD1_take15]
          exact beq_iff_eq.mpr ht


/-- Witness for the classifier: a 13-byte RIFF/WAVE payload classifies
wav, a 13-byte mpeg frame-sync payload classifies mpeg, and 3 bytes of
garbage default to wav. -/
theorem sniff_classifies_by_leading_bytes_witness :
    riffWaveSig [82, 73, 70, 70, 1, 2, 3, 4, 87, 65, 86, 69, 0] ∧
    sniffAudioMime [82, 73, 70, 70, 1, 2, 3, 4, 87, 65, 86, 69, 0] = "audio/wav" ∧
    sniffAudioMime [255, 251, 0, 0, 0, 0, 0, 0, 0, 0, 0, 0, 0] = "audio/mpeg" ∧
    sniffAudioMime [1, 2, 3] = "audio/wav" := by
  refine ⟨⟨by decide, by decide⟩, ?_, ?_, ?_⟩
  · exact (sniff_classifies_by_leading_bytes _).2.1 ⟨by decide, by decide⟩
  · exact (sniff_classifies_by_leading_bytes _).2.2.1 (by decide) (by decide)
      (by decide)
  · exact (sniff_classifies_by_leading_bytes _).2.2.2.1 (by decide)

end CodecTheorems

section CodecRoundTrip

open Codec

/-- The byte codes written for `"RIFF"`. -/
theorem asciiCodes_riff : asciiCodes "RIFF" = [82, 73, 70, 70] := by decide

/-- The byte codes written for `"WAVE"`. -/
theorem asciiCodes_wave : asciiCodes "WAVE" = [87, 65, 86, 69] := by decide

/-- The byte codes written for `"fmt "`. -/
theorem asciiCodes_fmt : asciiCodes "fmt " = [102, 109, 116, 32] := by decide

/-- The byte codes written for `"data"`. -/
theorem asciiCodes_dataTag : asciiCodes "data" = [100, 97, 116, 97] := by decide

/-- The WAV header is always exactly 44 bytes. -/
theorem wavHeader_length (n r : Nat) : (wavHeader n r).length = 44 := by
  simp [wavHeader, asciiCodes_riff, asciiCodes_wave, asciiCodes_fmt,
    asciiCodes_dataTag, u32le, u16le]

/-- Dropping the 44-byte header of an encoded WAV leaves the PCM bytes. -/
theorem encode_drop_header (samples : List ℚ) (rate : Nat) :
    (encodeWavPCM16 samples rate).drop 44 =
      samples.flatMap (fun s => i16le (pcm16OfSample s)) := by
  unfold encodeWavPCM16
  rw [show 44 = (wavHeader samples.length rate).length from
    (wavHeader_length _ _).symm]
  exact List.drop_left _ _

/-- Reading back a stored 16-bit value recovers it when it is in the
signed 16-bit range. -/
theorem pcmOfBytes_i16le_append (z : ℤ) (rest : List Nat)
    (h1 : -32768 ≤ z) (h2 : z ≤ 32767) :
    pcmOfBytes (i16le z ++ rest) = z :: pcmOfBytes rest := by
  simp only [i16le, u16le, List.cons_append, List.nil_append, pcmOfBytes]
  congr 1
  simp only [decodeI16]
  split <;> omega

/-- The clamp lands in `[-1, 1]`. -/
theorem clampSample_mem (s : ℚ) : -1 ≤ clampSample s ∧ clampSample s ≤ 1 := by
  unfold clampSample
  exact ⟨le_max_left _ _, max_le (by norm_num) (min_le_left _ _)⟩

/-- The scaled, truncated PCM value is in the signed 16-bit range. -/
theorem pcm16OfSample_bounds (s : ℚ) :
    -32768 ≤ pcm16OfSample s ∧ pcm16OfSample s ≤ 32767 := by
  obtain ⟨hl, hu⟩ := clampSample_mem s
  unfold pcm16OfSample ratTrunc
  by_cases hc : clampSample s < 0
  · have hx1 : (-32768 : ℚ) ≤ clampSample s * 32768 := by nlinarith
    have hx2 : clampSample s * 32768 < 0 := by nlinarith
    rw [if_pos hc, if_pos hx2]
    constructor
    · calc (-32768 : ℤ) = ⌈((-32768 : ℤ) : ℚ)⌉ := by rw [Int.ceil_intCast]
        _ ≤ ⌈clampSample s * 32768⌉ := Int.ceil_mono (by exact_mod_cast hx1)
    · have : ⌈clampSample s * 32768⌉ ≤ 0 := by
        rw [show (0 : ℤ) = ⌈((0 : ℤ) : ℚ)⌉ by rw [Int.ceil_intCast]]
        exact Int.ceil_mono (by exact_mod_cast hx2.le)
      omega
  · have hc' : 0 ≤ clampSample s := not_lt.mp hc
    have hx1 : 0 ≤ clampSample s * 32767 := by nlinarith
    have hx2 : clampSample s * 32767 ≤ 32767 := by nlinarith
    rw [if_neg hc, if_neg (not_lt.mpr hx1)]
    constructor
    · have : (0 : ℤ) ≤ ⌊clampSample s * 32767⌋ := Int.floor_nonneg.mpr hx1
      omega
    · calc ⌊clampSample s * 32767⌋ ≤ ⌊((32767 : ℤ) : ℚ)⌋ :=
          Int.floor_mono (by exact_mod_cast hx2)
        _ = 32767 := Int.floor_intCast _

/-- Decoding the encoder's output yields exactly the de-quantized PCM
value of each sample, in order. -/
theorem decodeWav_encode (samples : List ℚ) (rate : Nat) :
    decodeWavSamples (encodeWavPCM16 samples rate) =
      samples.map (fun s =>
        if pcm16OfSample s < 0 then ((pcm16OfSample s : ℤ) : ℚ) / 32768
        else ((pcm16OfSample s : ℤ) : ℚ) / 32767) := by
  unfold decodeWavSamples
  rw [encode_drop_header]
  have h : pcmOfBytes (samples.flatMap (fun s => i16le (pcm16OfSample s))) =
      samples.map pcm16OfSample := by
    induction samples with
    | nil => rfl
    | cons s rest ih =>
      rw [List.flatMap_cons,
        pcmOfBytes_i16le_append _ _ (pcm16OfSample_bounds s).1
          (pcm16OfSample_bounds s).2, ih, List.map_cons]
  rw [h, List.map_map]
  rfl

/-- One sample's de-quantized value is within one quantization step of
its clamped original. -/
theorem pcm_quantization (s : ℚ) :
    |(if pcm16OfSample s < 0 then ((pcm16OfSample s : ℤ) : ℚ) / 32768
      else ((pcm16OfSample s : ℤ) : ℚ) / 32767) - clampSample s| ≤ 1 / 32767 := by
  obtain ⟨hl, hu⟩ := clampSample_mem s
  by_cases hneg : clampSample s < 0
  · have hx : clampSample s * 32768 < 0 := by nlinarith
    have hpcm : pcm16OfSample s = ⌈clampSample s * 32768⌉ := by
      unfold pcm16OfSample ratTrunc
      rw [if_pos hneg, if_pos hx]
    have hle : clampSample s * 32768 ≤ (⌈clampSample s * 32768⌉ : ℚ) :=
      Int.le_ceil _
    have hlt : ((⌈clampSample s * 32768⌉ : ℤ) : ℚ) < clampSample s * 32768 + 1 :=
      Int.ceil_lt_add_one _
    rcases lt_or_ge (pcm16OfSample s) 0 with hp | hp
    · rw [if_pos hp, hpcm]
      rw [abs_le]
      constructor <;> linarith
    · have hceil0 : ⌈clampSample s * 32768⌉ = 0 := by
        have h0 : ⌈clampSample s * 32768⌉ ≤ 0 := by
          rw [show (0 : ℤ) = ⌈((0 : ℤ) : ℚ)⌉ by rw [Int.ceil_intCast]]
          exact Int.ceil_mono (by exact_mod_cast hx.le)
        rw [hpcm] at hp
        omega
      rw [if_neg (not_lt.mpr hp), hpcm, hceil0]
      rw [hceil0] at hlt
      rw [abs_le]
      push_cast at hlt ⊢
      constructor <;> linarith
  · have hc' : 0 ≤ clampSample s := not_lt.mp hneg
    have hx : 0 ≤ clampSample s * 32767 := by nlinarith
    have hpcm : pcm16OfSample s = ⌊clampSample s * 32767⌋ := by
      unfold pcm16OfSample ratTrunc
      rw [if_neg hneg, if_neg (not_lt.mpr hx)]
    have hfl : ((⌊clampSample s * 32767⌋ : ℤ) : ℚ) ≤ clampSample s * 32767 :=
      Int.floor_le _
    have hgt : clampSample s * 32767 < (⌊clampSample s * 32767⌋ : ℚ) + 1 :=
      Int.lt_floor_add_one _
    have hp : 0 ≤ pcm16OfSample s := by
      rw [hpcm]
      exact Int.floor_nonneg.mpr hx
    rw [if_neg (not_lt.mpr hp), hpcm]
    rw [abs_le]
    constructor <;> linarith

/-- Claim C8: for every list of float samples and every sample rate,
decoding the little-endian signed 16-bit PCM samples out of the WAV
container produced by `encodeWavPCM16` (each sample clamped to `[-1,1]`,
then scaled by 32767 if non-negative or 32768 if negative) reproduces
every clamped sample to within one quantization step, `1/32767`. -/
theorem wav_roundtrip_within_quantization_step (samples : List ℚ) (rate : Nat) :
    List.Forall₂ (fun r s => |r - clampSample s| ≤ 1 / 32767)
      (decodeWavSamples (encodeWavPCM16 samples rate)) samples := by
  rw [decodeWav_encode]
  rw [List.forall₂_map_left_iff]
  exact List.forall₂_same.mpr (fun s _ => pcm_quantization s)

end CodecRoundTrip
